import Mathlib

/-!
Verification of the CCSoft convolutional-code primitives: the reliability
matrix (`CC_ReliabilityMatrix.cpp`) and the fixed-array convolutional
encoder (`CC_Encoding_FA.h`).

The matrix buffer `_matrix` is column-major (`_matrix[ic*_nb_symbols + ir]`),
so it is embedded as a list of columns, each column a list of row metrics.
The 32-bit float metrics are modelled as rationals; machine registers are
naturals reduced modulo `2 ^ width` where the C++ shifts wrap.
-/

namespace ccsoft

/-- Replace column `ic` of a column list by `f` of its old value;
out-of-range indices leave the list unchanged (the C++ code never indexes
out of range here because loop bounds come from the matrix dimensions). -/
def modifyCol (f : List ℚ → List ℚ) : Nat → List (List ℚ) → List (List ℚ)
  | _, [] => []
  | 0, c :: rest => f c :: rest
  | n + 1, c :: rest => c :: modifyCol f n rest

theorem modifyCol_length (f : List ℚ → List ℚ) (i : Nat) (l : List (List ℚ)) :
    (modifyCol f i l).length = l.length := by
  induction l generalizing i with
  | nil => cases i <;> rfl
  | cons c rest ih =>
    cases i with
    | zero => rfl
    | succ n => simp [modifyCol, ih]

theorem getD_modifyCol_self (f : List ℚ → List ℚ) (i : Nat) (l : List (List ℚ))
    (h : i < l.length) : (modifyCol f i l).getD i [] = f (l.getD i []) := by
  induction l generalizing i with
  | nil => simp at h
  | cons c rest ih =>
    cases i with
    | zero => rfl
    | succ n => simpa [modifyCol] using ih n (by simpa using h)

theorem getD_modifyCol_ne (f : List ℚ → List ℚ) (i j : Nat) (l : List (List ℚ))
    (h : j ≠ i) : (modifyCol f i l).getD j [] = l.getD j [] := by
  induction l generalizing i j with
  | nil => cases i <;> rfl
  | cons c rest ih =>
    cases i with
    | zero =>
      cases j with
      | zero => exact absurd rfl h
      | succ m => rfl
    | succ n =>
      cases j with
      | zero => rfl
      | succ m => simpa [modifyCol] using ih n m (by omega)

/-- One step of `CC_ReliabilityMatrix::normalize`'s outer loop at virtual
column index `ic`: the state is the matrix together with `col_sum` from the
previous step (`last_col_sum`).  The row loop sums column `ic` (only while
`ic < message_length`) and, when `ic > 0` and the previous sum is nonzero,
divides every cell of column `ic - 1` by that previous sum. -/
def normStep (L : Nat) (st : List (List ℚ) × ℚ) (ic : Nat) : List (List ℚ) × ℚ :=
  (if 0 < ic ∧ st.2 ≠ 0 then
      modifyCol (fun c => c.map (fun x => x / st.2)) (ic - 1) st.1
    else st.1,
   if ic < L then (st.1.getD ic []).sum else 0)

/-- `CC_ReliabilityMatrix::normalize`: iterate `ic` from `0` to
`message_length` inclusive with the one-step-delayed column division. -/
def normalize (mat : List (List ℚ)) : List (List ℚ) :=
  ((List.range (mat.length + 1)).foldl (normStep mat.length) (mat, 0)).1

/-- The net per-column effect of `normalize`: divide by the column sum
unless that sum is zero. -/
def normCol (c : List ℚ) : List ℚ :=
  if c.sum = 0 then c else c.map (fun x => x / c.sum)

/-- The matrix with its first `k` columns normalized and the rest intact:
the intermediate shape of `normalize`'s loop state. -/
def partNorm (k : Nat) (mat : List (List ℚ)) : List (List ℚ) :=
  (mat.take k).map normCol ++ mat.drop k

theorem partNorm_zero (mat : List (List ℚ)) : partNorm 0 mat = mat := by
  simp [partNorm]

theorem partNorm_nil (k : Nat) : partNorm k [] = [] := by
  simp [partNorm]

theorem partNorm_cons_succ (k : Nat) (c : List ℚ) (rest : List (List ℚ)) :
    partNorm (k + 1) (c :: rest) = normCol c :: partNorm k rest := by
  simp [partNorm]

theorem getD_partNorm_ge (mat : List (List ℚ)) (k j : Nat) (h : k ≤ j) :
    (partNorm k mat).getD j [] = mat.getD j [] := by
  induction mat generalizing k j with
  | nil => simp [partNorm_nil]
  | cons c rest ih =>
    cases k with
    | zero => rw [partNorm_zero]
    | succ n =>
      cases j with
      | zero => omega
      | succ m => simpa [partNorm_cons_succ] using ih n m (by omega)

theorem modifyCol_partNorm (mat : List (List ℚ)) (k : Nat) (hk : k < mat.length)
    (hs : (mat.getD k []).sum ≠ 0) :
    modifyCol (fun c => c.map (fun x => x / (mat.getD k []).sum)) k (partNorm k mat) =
      partNorm (k + 1) mat := by
  induction mat generalizing k with
  | nil => simp at hk
  | cons c rest ih =>
    cases k with
    | zero =>
      rw [partNorm_zero, partNorm_cons_succ, partNorm_zero]
      simp only [List.getD_cons_zero] at hs ⊢
      simp [modifyCol, normCol, hs]
    | succ n =>
      rw [partNorm_cons_succ, partNorm_cons_succ]
      simp only [List.getD_cons_succ] at hs ⊢
      simp only [modifyCol]
      exact congrArg (normCol c :: ·) (ih n (by simpa using hk) hs)

theorem partNorm_succ_of_sum_zero (mat : List (List ℚ)) (k : Nat)
    (hs : (mat.getD k []).sum = 0) :
    partNorm (k + 1) mat = partNorm k mat := by
  induction mat generalizing k with
  | nil => simp [partNorm_nil]
  | cons c rest ih =>
    cases k with
    | zero =>
      rw [partNorm_cons_succ, partNorm_zero, partNorm_zero]
      simp only [List.getD_cons_zero] at hs
      simp [normCol, hs]
    | succ n =>
      rw [partNorm_cons_succ, partNorm_cons_succ]
      simp only [List.getD_cons_succ] at hs
      rw [ih n hs]

theorem partNorm_length_eq_map (mat : List (List ℚ)) :
    partNorm mat.length mat = mat.map normCol := by
  induction mat with
  | nil => simp [partNorm_nil]
  | cons c rest ih => simpa [partNorm_cons_succ] using ih

/-- The loop invariant of `normalize`: after the steps `ic = 0, …, j-1` the
matrix has its first `j - 1` columns normalized and `col_sum` holds the raw
sum of column `j - 1` (or `0` outside the sum-accumulating range). -/
theorem normalize_invariant (mat : List (List ℚ)) (j : Nat) (hj : j ≤ mat.length + 1) :
    (List.range j).foldl (normStep mat.length) (mat, 0) =
      (partNorm (j - 1) mat,
       if 1 ≤ j ∧ j ≤ mat.length then (mat.getD (j - 1) []).sum else 0) := by
  induction j with
  | zero => simp [partNorm_zero]
  | succ j ih =>
    rw [List.range_succ, List.foldl_append, ih (by omega)]
    simp only [List.foldl_cons, List.foldl_nil]
    have hgd : (partNorm (j - 1) mat).getD j [] = mat.getD j [] :=
      getD_partNorm_ge mat (j - 1) j (by omega)
    apply Prod.ext
    · show (if 0 < j ∧ (if 1 ≤ j ∧ j ≤ mat.length then (mat.getD (j - 1) []).sum else 0) ≠ 0
            then modifyCol
              (fun c => c.map (fun x =>
                x / (if 1 ≤ j ∧ j ≤ mat.length then (mat.getD (j - 1) []).sum else 0)))
              (j - 1) (partNorm (j - 1) mat)
            else partNorm (j - 1) mat) = partNorm (j + 1 - 1) mat
      cases j with
      | zero => simp
      | succ i =>
        have hcond : 1 ≤ i + 1 ∧ i + 1 ≤ mat.length := ⟨by omega, by omega⟩
        rw [if_pos hcond]
        simp only [Nat.add_sub_cancel]
        by_cases hz : (mat.getD i []).sum = 0
        · rw [if_neg (fun h => h.2 hz), partNorm_succ_of_sum_zero mat i hz]
        · rw [if_pos ⟨by omega, hz⟩, modifyCol_partNorm mat i (by omega) hz]
    · show (if j < mat.length then ((partNorm (j - 1) mat).getD j []).sum else 0) =
        if 1 ≤ j + 1 ∧ j + 1 ≤ mat.length then (mat.getD (j + 1 - 1) []).sum else 0
      rw [hgd]
      simp only [Nat.add_sub_cancel]
      by_cases h : j < mat.length
      · rw [if_pos h, if_pos ⟨by omega, by omega⟩]
      · rw [if_neg h, if_neg (by omega)]

/-- `normalize` equals the per-column map: each column is divided by its own
raw sum unless that sum is zero. -/
theorem normalize_eq_map (mat : List (List ℚ)) : normalize mat = mat.map normCol := by
  unfold normalize
  rw [normalize_invariant mat (mat.length + 1) (le_refl _)]
  simpa using partNorm_length_eq_map mat

theorem sum_map_div (c : List ℚ) (s : ℚ) : (c.map (fun x => x / s)).sum = c.sum / s := by
  induction c with
  | nil => simp
  | cons a t ih => simp [ih, add_div]

theorem getD_map_normCol (mat : List (List ℚ)) (i : Nat) (hi : i < mat.length) :
    (mat.map normCol).getD i [] = normCol (mat.getD i []) := by
  induction mat generalizing i with
  | nil => simp at hi
  | cons c rest ih =>
    cases i with
    | zero => rfl
    | succ n => simpa using ih n (by simpa using hi)

/-- Claim C1: after `normalize()`, every column whose pre-normalization sum
was nonzero holds its original values each divided by that column's own raw
sum (hence sums to 1), every zero-sum column is unchanged, and no other
cell is modified (the result is exactly the columnwise map, so the matrix
shape is preserved). -/
theorem claim_C1_normalize (mat : List (List ℚ)) (i : Nat) (hi : i < mat.length) :
    (normalize mat).length = mat.length ∧
    ((mat.getD i []).sum = 0 → (normalize mat).getD i [] = mat.getD i []) ∧
    ((mat.getD i []).sum ≠ 0 →
      (normalize mat).getD i [] = (mat.getD i []).map (fun x => x / (mat.getD i []).sum) ∧
      ((normalize mat).getD i []).sum = 1) := by
  have hmap := normalize_eq_map mat
  have hget : (normalize mat).getD i [] = normCol (mat.getD i []) := by
    rw [hmap]; exact getD_map_normCol mat i hi
  refine ⟨by rw [hmap]; simp, ?_, ?_⟩
  · intro hz
    rw [hget, normCol, if_pos hz]
  · intro hnz
    rw [hget, normCol, if_neg hnz]
    exact ⟨rfl, by rw [sum_map_div]; exact div_self hnz⟩

/-- Witness for C1 at the concrete matrix `[[1,3],[0,0]]` (column 0 has sum
4, column 1 has sum 0) and column index 0. -/
theorem claim_C1_normalize_witness :
    0 < ([[(1:ℚ),3],[0,0]] : List (List ℚ)).length ∧
    ((normalize [[(1:ℚ),3],[0,0]]).length = ([[(1:ℚ),3],[0,0]] : List (List ℚ)).length ∧
    ((([[(1:ℚ),3],[0,0]] : List (List ℚ)).getD 0 []).sum = 0 →
      (normalize [[(1:ℚ),3],[0,0]]).getD 0 [] = ([[(1:ℚ),3],[0,0]] : List (List ℚ)).getD 0 []) ∧
    ((([[(1:ℚ),3],[0,0]] : List (List ℚ)).getD 0 []).sum ≠ 0 →
      (normalize [[(1:ℚ),3],[0,0]]).getD 0 [] =
        (([[(1:ℚ),3],[0,0]] : List (List ℚ)).getD 0 []).map
          (fun x => x / (([[(1:ℚ),3],[0,0]] : List (List ℚ)).getD 0 []).sum) ∧
      ((normalize [[(1:ℚ),3],[0,0]]).getD 0 []).sum = 1)) :=
  ⟨by decide, claim_C1_normalize [[(1:ℚ),3],[0,0]] 0 (by decide)⟩

/-! ### find_max / find_max_in_col (`CC_ReliabilityMatrix.cpp` 139-177) -/

/-- The cells of the matrix in the scan order of `find_max`: columns in
increasing order (outer loop `ic`), rows in increasing order within a
column (inner loop `ir`); a cell is `((ic, ir), value)`. -/
def cellsFrom (ic : Nat) : List (List ℚ) → List ((Nat × Nat) × ℚ)
  | [] => []
  | c :: rest => (List.enumFrom 0 c).map (fun p => ((ic, p.1), p.2)) ++ cellsFrom (ic + 1) rest

def cells (mat : List (List ℚ)) : List ((Nat × Nat) × ℚ) := cellsFrom 0 mat

/-- The body of `find_max`'s loops: update the running `(max, i_row, i_col)`
whenever the scanned value compares `>=` the running maximum. -/
def findMaxStep (st : ℚ × Nat × Nat) (cell : (Nat × Nat) × ℚ) : ℚ × Nat × Nat :=
  if st.1 ≤ cell.2 then (cell.2, cell.1.2, cell.1.1) else st

/-- `CC_ReliabilityMatrix::find_max`: returns `(max, i_row, i_col)`, with
`max` initialized to `0.0` and `i_row = i_col = 0`. -/
def find_max (mat : List (List ℚ)) : ℚ × Nat × Nat :=
  (cells mat).foldl findMaxStep (0, 0, 0)

theorem foldMax_init_le (l : List ((Nat × Nat) × ℚ)) (st : ℚ × Nat × Nat) :
    st.1 ≤ (l.foldl findMaxStep st).1 := by
  induction l generalizing st with
  | nil => exact le_refl _
  | cons c rest ih =>
    rw [List.foldl_cons]
    refine le_trans ?_ (ih (findMaxStep st c))
    by_cases h : st.1 ≤ c.2
    · simpa [findMaxStep, h] using h
    · simp [findMaxStep, h]

theorem foldMax_ge_mem (l : List ((Nat × Nat) × ℚ)) (st : ℚ × Nat × Nat) :
    ∀ c ∈ l, c.2 ≤ (l.foldl findMaxStep st).1 := by
  induction l generalizing st with
  | nil => intro c hc; simp at hc
  | cons c rest ih =>
    intro d hd
    rw [List.foldl_cons]
    rcases List.mem_cons.mp hd with rfl | hdr
    · refine le_trans ?_ (foldMax_init_le rest (findMaxStep st d))
      by_cases h : st.1 ≤ d.2
      · simp [findMaxStep, h]
      · simp only [findMaxStep, if_neg h]
        exact le_of_lt (lt_of_not_le h)
    · exact ih (findMaxStep st c) d hdr

theorem foldMax_last (l : List ((Nat × Nat) × ℚ)) (st : ℚ × Nat × Nat) :
    (∃ l1 l2, l = l1 ++
        (((l.foldl findMaxStep st).2.2, (l.foldl findMaxStep st).2.1),
          (l.foldl findMaxStep st).1) :: l2 ∧
        ∀ c ∈ l2, c.2 < (l.foldl findMaxStep st).1) ∨
    (l.foldl findMaxStep st = st ∧ ∀ c ∈ l, c.2 < st.1) := by
  induction l generalizing st with
  | nil => exact Or.inr ⟨rfl, by simp⟩
  | cons c rest ih =>
    rw [List.foldl_cons]
    rcases ih (findMaxStep st c) with ⟨l1, l2, heq, hlt⟩ | ⟨heq, hall⟩
    · exact Or.inl ⟨c :: l1, l2, by rw [List.cons_append, ← heq], hlt⟩
    · by_cases h : st.1 ≤ c.2
      · refine Or.inl ⟨[], rest, ?_, ?_⟩
        · rw [heq]
          simp [findMaxStep, h]
        · intro d hd
          rw [heq]
          simpa [findMaxStep, h] using hall d hd
      · refine Or.inr ⟨by rw [heq]; simp [findMaxStep, h], ?_⟩
        intro d hd
        rcases List.mem_cons.mp hd with rfl | hdr
        · exact lt_of_not_le h
        · have := hall d hdr
          rwa [show (findMaxStep st c).1 = st.1 by simp [findMaxStep, h]] at this

/-- Claim C4 (amended): for a matrix with non-negative entries, `find_max`
returns a value `≥` every cell; on an empty matrix it returns
`(0, 0, 0)`; on a nonempty matrix the returned `(row, col)` is the last
cell in scan order attaining the maximum (later-scanned ties win) — in
particular on an all-zero nonempty matrix it is the last cell, not
`(0, 0)`. -/
theorem claim_C4_find_max (mat : List (List ℚ)) (hnn : ∀ c ∈ cells mat, 0 ≤ c.2) :
    (∀ c ∈ cells mat, c.2 ≤ (find_max mat).1) ∧
    (cells mat = [] → find_max mat = (0, 0, 0)) ∧
    (cells mat ≠ [] →
      ∃ l1 l2, cells mat = l1 ++
          (((find_max mat).2.2, (find_max mat).2.1), (find_max mat).1) :: l2 ∧
        (∀ c ∈ l1, c.2 ≤ (find_max mat).1) ∧
        (∀ c ∈ l2, c.2 < (find_max mat).1)) := by
  refine ⟨foldMax_ge_mem (cells mat) (0, 0, 0), ?_, ?_⟩
  · intro h
    rw [find_max, h]
    rfl
  · intro hne
    rcases foldMax_last (cells mat) (0, 0, 0) with ⟨l1, l2, heq, hlt⟩ | ⟨_, hall⟩
    · exact ⟨l1, l2, heq, fun c hc => foldMax_ge_mem (cells mat) (0, 0, 0) c
        (heq ▸ List.mem_append_left _ hc), hlt⟩
    · rcases List.exists_mem_of_ne_nil (cells mat) hne with ⟨c, hc⟩
      exact absurd (lt_of_le_of_lt (hnn c hc) (hall c hc)) (lt_irrefl 0)

/-- Counterexample to C4 as stated: on the all-zero 2×2 matrix the code's
non-strict `>=` updates `(i_row, i_col)` at every cell, so `find_max`
returns row 1, col 1 — not row 0, col 0 as the claim asserts for all-zero
matrices. -/
theorem claim_C4_counterexample :
    find_max [[(0:ℚ), 0], [0, 0]] = (0, 1, 1) ∧
    find_max [[(0:ℚ), 0], [0, 0]] ≠ (0, 0, 0) := by
  constructor
  · rfl
  · intro h
    have : (1 : Nat) = 0 := congrArg (fun t => t.2.1) h
    exact absurd this (by decide)

/-- Witness for C4 at the matrix `[[1,2],[3,1]]` (unique maximum 3 at
row 0 of column 1). -/
theorem claim_C4_find_max_witness :
    (∀ c ∈ cells [[(1:ℚ), 2], [3, 1]], 0 ≤ c.2) ∧
    ((∀ c ∈ cells [[(1:ℚ), 2], [3, 1]], c.2 ≤ (find_max [[(1:ℚ), 2], [3, 1]]).1) ∧
    (cells [[(1:ℚ), 2], [3, 1]] = [] → find_max [[(1:ℚ), 2], [3, 1]] = (0, 0, 0)) ∧
    (cells [[(1:ℚ), 2], [3, 1]] ≠ [] →
      ∃ l1 l2, cells [[(1:ℚ), 2], [3, 1]] = l1 ++
          (((find_max [[(1:ℚ), 2], [3, 1]]).2.2, (find_max [[(1:ℚ), 2], [3, 1]]).2.1),
            (find_max [[(1:ℚ), 2], [3, 1]]).1) :: l2 ∧
        (∀ c ∈ l1, c.2 ≤ (find_max [[(1:ℚ), 2], [3, 1]]).1) ∧
        (∀ c ∈ l2, c.2 < (find_max [[(1:ℚ), 2], [3, 1]]).1))) :=
  ⟨by decide, claim_C4_find_max [[(1:ℚ), 2], [3, 1]] (by decide)⟩

theorem snd_mem_of_mem_enumFrom {l : List ℚ} {p : Nat × ℚ} {n : Nat}
    (h : p ∈ List.enumFrom n l) : p.2 ∈ l := by
  induction l generalizing n with
  | nil => simp [List.enumFrom] at h
  | cons a t ih =>
    rcases List.mem_cons.mp h with rfl | h'
    · exact List.mem_cons_self _ _
    · exact List.mem_cons_of_mem _ (ih h')

/-- The body of `find_max_in_col`'s row loop with exclusive upper bound
`prev_max`: update the running `(max, i_row)` whenever the value is both
`>=` the running maximum and `<` `prev_max`. -/
def fmicStep (prev_max : ℚ) (st : ℚ × Nat) (p : Nat × ℚ) : ℚ × Nat :=
  if st.1 ≤ p.2 ∧ p.2 < prev_max then (p.2, p.1) else st

/-- `CC_ReliabilityMatrix::find_max_in_col`: returns `(max, i_row)` for the
given column, scanning rows in increasing order. -/
def find_max_in_col (mat : List (List ℚ)) (i_col : Nat) (prev_max : ℚ) : ℚ × Nat :=
  (List.enumFrom 0 (mat.getD i_col [])).foldl (fmicStep prev_max) (0, 0)

theorem fmic_init_le (B : ℚ) (l : List (Nat × ℚ)) (st : ℚ × Nat) :
    st.1 ≤ (l.foldl (fmicStep B) st).1 := by
  induction l generalizing st with
  | nil => exact le_refl _
  | cons c rest ih =>
    rw [List.foldl_cons]
    refine le_trans ?_ (ih (fmicStep B st c))
    by_cases h : st.1 ≤ c.2 ∧ c.2 < B
    · simpa [fmicStep, h] using h.1
    · simp [fmicStep, h]

theorem fmic_ge_mem (B : ℚ) (l : List (Nat × ℚ)) (st : ℚ × Nat) :
    ∀ p ∈ l, p.2 < B → p.2 ≤ (l.foldl (fmicStep B) st).1 := by
  induction l generalizing st with
  | nil => intro p hp; simp at hp
  | cons c rest ih =>
    intro p hp hB
    rw [List.foldl_cons]
    rcases List.mem_cons.mp hp with rfl | hpr
    · refine le_trans ?_ (fmic_init_le B rest (fmicStep B st p))
      by_cases h : st.1 ≤ p.2 ∧ p.2 < B
      · simp [fmicStep, h]
      · simp only [fmicStep, if_neg h]
        have : ¬ st.1 ≤ p.2 := fun hle => h ⟨hle, hB⟩
        exact le_of_lt (lt_of_not_le this)
    · exact ih (fmicStep B st c) p hpr hB

theorem fmic_last (B : ℚ) (l : List (Nat × ℚ)) (st : ℚ × Nat) (hst : st.1 < B) :
    (∃ l1 l2, l = l1 ++
        ((l.foldl (fmicStep B) st).2, (l.foldl (fmicStep B) st).1) :: l2 ∧
        (l.foldl (fmicStep B) st).1 < B ∧
        ∀ p ∈ l2, p.2 < B → p.2 < (l.foldl (fmicStep B) st).1) ∨
    (l.foldl (fmicStep B) st = st ∧ ∀ p ∈ l, p.2 < B → p.2 < st.1) := by
  induction l generalizing st with
  | nil => exact Or.inr ⟨rfl, by simp⟩
  | cons c rest ih =>
    rw [List.foldl_cons]
    have hst' : (fmicStep B st c).1 < B := by
      by_cases h : st.1 ≤ c.2 ∧ c.2 < B
      · simpa [fmicStep, h] using h.2
      · simpa [fmicStep, h] using hst
    rcases ih (fmicStep B st c) hst' with ⟨l1, l2, heq, hlt⟩ | ⟨heq, hall⟩
    · exact Or.inl ⟨c :: l1, l2, by rw [List.cons_append, ← heq], hlt⟩
    · by_cases h : st.1 ≤ c.2 ∧ c.2 < B
      · refine Or.inl ⟨[], rest, ?_, ?_, ?_⟩
        · rw [heq]
          simp [fmicStep, h]
        · rw [heq]
          simpa [fmicStep, h] using h.2
        · intro p hp hB
          rw [heq]
          simpa [fmicStep, h] using hall p hp hB
      · refine Or.inr ⟨by rw [heq]; simp [fmicStep, h], ?_⟩
        intro p hp hB
        rcases List.mem_cons.mp hp with rfl | hpr
        · exact lt_of_not_le (fun hle => h ⟨hle, hB⟩)
        · have := hall p hpr hB
          rwa [show (fmicStep B st c).1 = st.1 by simp [fmicStep, h]] at this

/-- Claim C5: for a matrix with non-negative entries, an in-range column
and a bound under which at least one cell of the column lies,
`find_max_in_col` returns the maximum value among the column's cells that
are strictly below the bound, the returned row is the last row attaining
it (later-wins tie rule), and the returned value is itself strictly below
the bound — so passing each returned value as the next call's bound
enumerates the column's values in strictly descending order. -/
theorem claim_C5_find_max_in_col (mat : List (List ℚ)) (i_col : Nat) (B : ℚ)
    (hnn : ∀ v ∈ mat.getD i_col [], 0 ≤ v)
    (hq : ∃ p ∈ List.enumFrom 0 (mat.getD i_col []), p.2 < B) :
    (∀ p ∈ List.enumFrom 0 (mat.getD i_col []),
      p.2 < B → p.2 ≤ (find_max_in_col mat i_col B).1) ∧
    (find_max_in_col mat i_col B).1 < B ∧
    (∃ l1 l2, List.enumFrom 0 (mat.getD i_col []) = l1 ++
        ((find_max_in_col mat i_col B).2, (find_max_in_col mat i_col B).1) :: l2 ∧
      ∀ p ∈ l2, p.2 < B → p.2 < (find_max_in_col mat i_col B).1) := by
  obtain ⟨p0, hp0, hp0B⟩ := hq
  have h0B : (0 : ℚ) < B :=
    lt_of_le_of_lt (hnn p0.2 (snd_mem_of_mem_enumFrom hp0)) hp0B
  refine ⟨fmic_ge_mem B _ _, ?_, ?_⟩
  · rcases fmic_last B (List.enumFrom 0 (mat.getD i_col [])) (0, 0) h0B with
      ⟨_, _, _, hB, _⟩ | ⟨heq, hall⟩
    · exact hB
    · exact absurd (lt_of_le_of_lt (hnn p0.2 (snd_mem_of_mem_enumFrom hp0))
        (hall p0 hp0 hp0B)) (lt_irrefl 0)
  · rcases fmic_last B (List.enumFrom 0 (mat.getD i_col [])) (0, 0) h0B with
      ⟨l1, l2, heq, _, hlt⟩ | ⟨heq, hall⟩
    · exact ⟨l1, l2, heq, hlt⟩
    · exact absurd (lt_of_le_of_lt (hnn p0.2 (snd_mem_of_mem_enumFrom hp0))
        (hall p0 hp0 hp0B)) (lt_irrefl 0)

/-- Witness for C5 at the single column `[1,3,2]` with bound 3: returns
value 2 at row 2. -/
theorem claim_C5_find_max_in_col_witness :
    (∀ v ∈ ([[(1:ℚ), 3, 2]] : List (List ℚ)).getD 0 [], 0 ≤ v) ∧
    (∃ p ∈ List.enumFrom 0 (([[(1:ℚ), 3, 2]] : List (List ℚ)).getD 0 []), p.2 < 3) ∧
    ((∀ p ∈ List.enumFrom 0 (([[(1:ℚ), 3, 2]] : List (List ℚ)).getD 0 []),
      p.2 < 3 → p.2 ≤ (find_max_in_col [[(1:ℚ), 3, 2]] 0 3).1) ∧
    (find_max_in_col [[(1:ℚ), 3, 2]] 0 3).1 < 3 ∧
    (∃ l1 l2, List.enumFrom 0 (([[(1:ℚ), 3, 2]] : List (List ℚ)).getD 0 []) = l1 ++
        ((find_max_in_col [[(1:ℚ), 3, 2]] 0 3).2, (find_max_in_col [[(1:ℚ), 3, 2]] 0 3).1) :: l2 ∧
      ∀ p ∈ l2, p.2 < 3 → p.2 < (find_max_in_col [[(1:ℚ), 3, 2]] 0 3).1)) :=
  ⟨by decide, by decide,
    claim_C5_find_max_in_col [[(1:ℚ), 3, 2]] 0 3 (by decide) (by decide)⟩

/-! ### CC_Encoding_FA: the convolutional encoder (`CC_Encoding_FA.h`) -/

/-- The bit-counting loop of `CC_Encoding_FA::xorbits`
(`while (w_reg != 0) { nb_ones += w_reg % 2; w_reg /= 2; }`), driven by a
structural fuel so that concrete instances evaluate in the kernel; `nbOnes`
supplies fuel `v`, which always suffices since `w_reg` at least halves. -/
def nbOnesAux : Nat → Nat → Nat
  | 0, _ => 0
  | fuel + 1, v => if v = 0 then 0 else v % 2 + nbOnesAux fuel (v / 2)

def nbOnes (v : Nat) : Nat := nbOnesAux v v

/-- `CC_Encoding_FA::xorbits`: XOR of all bits = population count mod 2. -/
def xorbits (reg : Nat) : Bool := nbOnes reg % 2 == 1

/-- `CC_Encoding_FA<T_Register, T_IOSymbol, N_k>`: the configuration fields
fixed by the constructor plus the mutable `registers` array (length `k`).
`regWidth`/`symWidth` stand for `sizeof(T_Register)*8` /
`sizeof(T_IOSymbol)*8`. -/
structure Enc where
  k : Nat
  n : Nat
  m : Nat
  regWidth : Nat
  symWidth : Nat
  constraints : List Nat
  genpoly : List (List Nat)
  registers : List Nat
deriving DecidableEq

/-- One register update of `encode`: optionally shift right (flushing the
previously inserted bit when `no_step`), then shift left — wrapping at the
register width, as the C++ `<<=` on an unsigned does — and insert the new
input bit at the least-significant position. -/
def stepReg (w : Nat) (no_step : Bool) (reg bit : Nat) : Nat :=
  (if no_step then reg / 2 else reg) * 2 % 2 ^ w + bit

/-- The register-loading loop of `encode`: register `ki` takes input bit
`ki` (least-significant first, `w_in >>= 1` each iteration). -/
def encodeRegs (w : Nat) (no_step : Bool) : List Nat → Nat → List Nat
  | [], _ => []
  | r :: rest, w_in => stepReg w no_step r (w_in % 2) :: encodeRegs w no_step rest (w_in / 2)

/-- Output bit `ni` of `encode`: XOR over the `k` registers of
`xorbits(registers[ki] & genpoly_representations[ki][ni])`. -/
def symbolBit (regs : List Nat) (genpoly : List (List Nat)) (k ni : Nat) : Nat :=
  (List.range k).foldl
    (fun acc ki =>
      acc ^^^ (if xorbits (regs.getD ki 0 &&& (genpoly.getD ki []).getD ni 0) then 1 else 0))
    0

/-- The output-assembly loop of `encode`:
`out_symbol += symbol_bit << ni`, wrapping at the I/O symbol width. -/
def encodeOutput (sw k n : Nat) (regs : List Nat) (genpoly : List (List Nat)) : Nat :=
  (List.range n).foldl (fun acc ni => (acc + symbolBit regs genpoly k ni * 2 ^ ni) % 2 ^ sw) 0

/-- `CC_Encoding_FA::encode`: step the registers, then assemble the output
symbol; returns the updated encoder and the output symbol. -/
def encode (e : Enc) (x : Nat) (no_step : Bool) : Enc × Nat :=
  ({ e with registers := encodeRegs e.regWidth no_step e.registers x },
   encodeOutput e.symWidth e.k e.n (encodeRegs e.regWidth no_step e.registers x) e.genpoly)

/-- `CC_Encoding_FA::clear`: zero all `k` registers. -/
def clear (e : Enc) : Enc := { e with registers := List.replicate e.k 0 }

/-- `CC_Encoding_FA::get_registers`. -/
def get_registers (e : Enc) : List Nat := e.registers

/-- `CC_Encoding_FA::set_registers`. -/
def set_registers (e : Enc) (regs : List Nat) : Enc := { e with registers := regs }

/-- The `min_nb_outputs` computation of the constructor: seeded with
`genpoly_representations[0].size()` and minimized over all entries. -/
def minOutputs (genpoly : List (List Nat)) : Nat :=
  (genpoly.map List.length).foldl Nat.min (genpoly.headD []).length

/-- The `CC_Encoding_FA` constructor with its validation checks, in source
order; a thrown `CCSoft_Exception` is an `Except.error` with the source's
message. -/
def mkEncoder (k rw sw : Nat) (constraints : List Nat) (genpoly : List (List Nat)) :
    Except String Enc :=
  if constraints.length ≠ k then Except.error "Constraints size is not valid"
  else if sw < k then Except.error "Number of input bits not supported by I/O symbol type"
  else if genpoly.length ≠ k then Except.error "Generator polynomial representations size error"
  else if constraints.any (fun c => rw < c) then
    Except.error "One constraint size is too large for the size of the registers"
  else if minOutputs genpoly ≤ k then
    Except.error "The number of outputs must be larger than the number of inputs"
  else if sw < minOutputs genpoly then
    Except.error "Number of output bits not supported by I/O symbol type"
  else Except.ok
    { k := k, n := minOutputs genpoly, m := constraints.foldl Nat.max 0,
      regWidth := rw, symWidth := sw, constraints := constraints, genpoly := genpoly,
      registers := List.replicate k 0 }

/-- Encode a whole input-symbol sequence, returning the final encoder state
and the list of output symbols. -/
def encodeSeq (e : Enc) : List Nat → Enc × List Nat
  | [] => (e, [])
  | x :: xs =>
    ((encodeSeq (encode e x false).1 xs).1,
     (encode e x false).2 :: (encodeSeq (encode e x false).1 xs).2)

/-- Claim C3: construction fails exactly when one of the five spec'd checks
fails.  The source's sixth check (`N_k > sizeof(T_IOSymbol)*8`) can only
fire when `n ≤ k` or `n > symWidth` also holds, so the iff is unaffected. -/
theorem claim_C3_constructor (k rw sw : Nat) (constraints : List Nat)
    (genpoly : List (List Nat)) :
    (∃ msg, mkEncoder k rw sw constraints genpoly = Except.error msg) ↔
      (constraints.length ≠ k ∨ (∃ c ∈ constraints, rw < c) ∨ genpoly.length ≠ k ∨
        minOutputs genpoly ≤ k ∨ sw < minOutputs genpoly) := by
  unfold mkEncoder
  split_ifs with h1 h2 h3 h4 h5 h6
  · exact iff_of_true ⟨_, rfl⟩ (Or.inl h1)
  · refine iff_of_true ⟨_, rfl⟩ ?_
    by_cases hm : minOutputs genpoly ≤ k
    · exact Or.inr (Or.inr (Or.inr (Or.inl hm)))
    · exact Or.inr (Or.inr (Or.inr (Or.inr (by omega))))
  · exact iff_of_true ⟨_, rfl⟩ (Or.inr (Or.inr (Or.inl h3)))
  · refine iff_of_true ⟨_, rfl⟩ (Or.inr (Or.inl ?_))
    simpa using List.any_eq_true.mp h4
  · exact iff_of_true ⟨_, rfl⟩ (Or.inr (Or.inr (Or.inr (Or.inl h5))))
  · exact iff_of_true ⟨_, rfl⟩ (Or.inr (Or.inr (Or.inr (Or.inr h6))))
  · refine iff_of_false (by simp) ?_
    intro hdisj
    rcases hdisj with h | h | h | h | h
    · exact h1 h
    · exact h4 (List.any_eq_true.mpr (by simpa using h))
    · exact h3 h
    · exact h5 h
    · exact h6 h

theorem encodeRegs_false_eq_map (w : Nat) (regs : List Nat) (x : Nat) :
    encodeRegs w false regs x =
      (List.range regs.length).map
        (fun ki => regs.getD ki 0 * 2 % 2 ^ w + x / 2 ^ ki % 2) := by
  induction regs generalizing x with
  | nil => rfl
  | cons r rest ih =>
    show stepReg w false r (x % 2) :: encodeRegs w false rest (x / 2) = _
    rw [List.length_cons, List.range_succ_eq_map, List.map_cons, List.map_map]
    congr 1
    · simp [stepReg]
    · rw [ih (x / 2)]
      apply List.map_congr_left
      intro ki _
      show rest.getD ki 0 * 2 % 2 ^ w + x / 2 / 2 ^ ki % 2 = _
      simp only [Function.comp_apply, List.getD_cons_succ]
      rw [Nat.div_div_eq_div_mul, ← pow_succ']

theorem foldl_xor_bits_le_one (g : Nat → Nat) (hg : ∀ i, g i ≤ 1) :
    ∀ (l : List Nat) (acc : Nat), acc ≤ 1 → l.foldl (fun a i => a ^^^ g i) acc ≤ 1 := by
  intro l
  induction l with
  | nil => intro acc h; exact h
  | cons i rest ih =>
    intro acc h
    rw [List.foldl_cons]
    refine ih _ ?_
    rcases Nat.le_one_iff_eq_zero_or_eq_one.mp h with rfl | rfl <;>
      rcases Nat.le_one_iff_eq_zero_or_eq_one.mp (hg i) with h2 | h2 <;> simp [h2]

theorem symbolBit_le_one (regs : List Nat) (genpoly : List (List Nat)) (k ni : Nat) :
    symbolBit regs genpoly k ni ≤ 1 := by
  refine foldl_xor_bits_le_one _ (fun ki => ?_) (List.range k) 0 (by omega)
  split <;> omega

theorem encodeOutput_bits (sw k : Nat) (regs : List Nat) (genpoly : List (List Nat)) :
    ∀ n, n ≤ sw →
      encodeOutput sw k n regs genpoly < 2 ^ n ∧
      ∀ j, j < n → encodeOutput sw k n regs genpoly / 2 ^ j % 2 = symbolBit regs genpoly k j := by
  intro n
  induction n with
  | zero => intro _; exact ⟨by simp [encodeOutput], fun j hj => by omega⟩
  | succ n ih =>
    intro hsw
    obtain ⟨ihlt, ihbit⟩ := ih (by omega)
    have hstep : encodeOutput sw k (n + 1) regs genpoly =
        (encodeOutput sw k n regs genpoly + symbolBit regs genpoly k n * 2 ^ n) % 2 ^ sw := by
      unfold encodeOutput
      rw [List.range_succ, List.foldl_append, List.foldl_cons, List.foldl_nil]
    have hb := symbolBit_le_one regs genpoly k n
    have hlt2 : encodeOutput sw k n regs genpoly + symbolBit regs genpoly k n * 2 ^ n <
        2 ^ (n + 1) := by
      have : symbolBit regs genpoly k n * 2 ^ n ≤ 2 ^ n :=
        le_trans (Nat.mul_le_mul_right _ hb) (by omega)
      have hpow : 2 ^ (n + 1) = 2 ^ n + 2 ^ n := by rw [pow_succ]; omega
      omega
    have hmod : (encodeOutput sw k n regs genpoly + symbolBit regs genpoly k n * 2 ^ n) %
        2 ^ sw = encodeOutput sw k n regs genpoly + symbolBit regs genpoly k n * 2 ^ n :=
      Nat.mod_eq_of_lt (lt_of_lt_of_le hlt2 (Nat.pow_le_pow_right (by omega) hsw))
    rw [hstep, hmod]
    refine ⟨hlt2, fun j hj => ?_⟩
    rcases Nat.lt_succ_iff_lt_or_eq.mp hj with hjn | rfl
    · obtain ⟨d, hd⟩ : ∃ d, n - j = d + 1 := ⟨n - j - 1, by omega⟩
      have hsplit : (2 : Nat) ^ n = 2 ^ j * 2 ^ (n - j) := by
        rw [← pow_add]
        congr 1
        omega
      have harr : encodeOutput sw k n regs genpoly + symbolBit regs genpoly k n * 2 ^ n =
          encodeOutput sw k n regs genpoly +
            2 ^ j * (symbolBit regs genpoly k n * 2 ^ (n - j)) := by
        rw [hsplit]; ring
      rw [harr, Nat.add_mul_div_left _ _ (Nat.two_pow_pos j)]
      have heven : symbolBit regs genpoly k n * 2 ^ (n - j) =
          symbolBit regs genpoly k n * 2 ^ d * 2 := by
        rw [hd, pow_succ]; ring
      rw [heven, Nat.add_mul_mod_self_right]
      exact ihbit j hjn
    · have harr2 : encodeOutput sw k j regs genpoly + symbolBit regs genpoly k j * 2 ^ j =
          encodeOutput sw k j regs genpoly + 2 ^ j * symbolBit regs genpoly k j := by ring
      rw [harr2, Nat.add_mul_div_left _ _ (Nat.two_pow_pos j), Nat.div_eq_of_lt ihlt]
      omega

/-- The golden-vector configuration: `k = 1`, `n = 2`, constraint length 3,
generators `{0b111, 0b101}`, 32-bit registers and symbols, cleared state. -/
def goldEnc : Enc :=
  { k := 1, n := 2, m := 3, regWidth := 32, symWidth := 32,
    constraints := [3], genpoly := [[7, 5]], registers := [0] }

/-- Claim C2: `encode` shifts each register left by one (wrapping at the
register width) and inserts input bit `ki` (least-significant first); output
bit `j` (for `j < n ≤` the symbol width) equals the XOR-parity over the `k`
registers of `register & tap_vector[ki][j]`, placed at position `j`; and
the golden vector — the rate-1/2 memory-2 code `{0b111, 0b101}` encoding
bits 1,0,1,1 from cleared state — yields output symbols 3, 1, 0, 2. -/
theorem claim_C2_encode (e : Enc) (x j : Nat) (hj : j < e.n) (hn : e.n ≤ e.symWidth) :
    (encode e x false).1.registers =
      (List.range e.registers.length).map
        (fun ki => e.registers.getD ki 0 * 2 % 2 ^ e.regWidth + x / 2 ^ ki % 2) ∧
    (encode e x false).2 / 2 ^ j % 2 =
      symbolBit (encodeRegs e.regWidth false e.registers x) e.genpoly e.k j ∧
    (mkEncoder 1 32 32 [3] [[7, 5]]).map (fun enc => (encodeSeq enc [1, 0, 1, 1]).2) =
      Except.ok [3, 1, 0, 2] := by
  refine ⟨encodeRegs_false_eq_map e.regWidth e.registers x, ?_, by rfl⟩
  exact (encodeOutput_bits e.symWidth e.k (encodeRegs e.regWidth false e.registers x)
    e.genpoly e.n hn).2 j hj

/-- Witness for C2 at the golden configuration, input symbol 1, bit 0. -/
theorem claim_C2_encode_witness :
    (0 < goldEnc.n ∧ goldEnc.n ≤ goldEnc.symWidth) ∧
    ((encode goldEnc 1 false).1.registers =
      (List.range goldEnc.registers.length).map
        (fun ki => goldEnc.registers.getD ki 0 * 2 % 2 ^ goldEnc.regWidth + 1 / 2 ^ ki % 2) ∧
    (encode goldEnc 1 false).2 / 2 ^ 0 % 2 =
      symbolBit (encodeRegs goldEnc.regWidth false goldEnc.registers 1) goldEnc.genpoly
        goldEnc.k 0 ∧
    (mkEncoder 1 32 32 [3] [[7, 5]]).map (fun enc => (encodeSeq enc [1, 0, 1, 1]).2) =
      Except.ok [3, 1, 0, 2]) :=
  ⟨⟨by decide, by decide⟩, claim_C2_encode goldEnc 1 0 (by decide) (by decide)⟩

theorem set_registers_encodeSeq (e : Enc) (s rs : List Nat) :
    set_registers (encodeSeq e s).1 rs = set_registers e rs := by
  induction s generalizing e with
  | nil => rfl
  | cons x xs ih =>
    show set_registers (encodeSeq (encode e x false).1 xs).1 rs = _
    rw [ih]
    rfl

/-- Claim C7: `get_registers`/`set_registers` round-trip the full encoder
state, and `encode` outputs depend only on the register state and inputs:
capturing the state, encoding `s1`, restoring the captured state and
re-encoding `s1` reproduces exactly the same output symbols. -/
theorem claim_C7_state_fork (e : Enc) (s1 rs : List Nat) :
    get_registers (set_registers e rs) = rs ∧
    set_registers e (get_registers e) = e ∧
    (encodeSeq (set_registers (encodeSeq e s1).1 (get_registers e)) s1).2 =
      (encodeSeq e s1).2 := by
  refine ⟨rfl, rfl, ?_⟩
  rw [show get_registers e = e.registers from rfl, set_registers_encodeSeq]
  rfl

theorem stepReg_true (w r b : Nat) : stepReg w true r b = r / 2 * 2 % 2 ^ w + b := rfl

theorem stepReg_false (w r b : Nat) : stepReg w false r b = r * 2 % 2 ^ w + b := rfl

theorem stepReg_replay (w r b : Nat) (hb : b ≤ 1) :
    stepReg w true (stepReg w false r b) b = stepReg w false r b := by
  rw [stepReg_false, stepReg_true]
  have h2 : 2 ∣ r * 2 % 2 ^ w := by
    cases w with
    | zero => simp [Nat.mod_one]
    | succ s =>
      exact (Nat.dvd_mod_iff (dvd_pow_self 2 (Nat.succ_ne_zero s))).mpr ⟨r, by ring⟩
  obtain ⟨m, hm⟩ := h2
  have hlt : 2 * m < 2 ^ w := hm ▸ Nat.mod_lt _ (Nat.two_pow_pos w)
  rw [hm]
  have hdiv : (2 * m + b) / 2 = m := by omega
  rw [hdiv]
  rw [Nat.mod_eq_of_lt (by omega : m * 2 < 2 ^ w)]
  omega

theorem encodeRegs_replay (w : Nat) (regs : List Nat) (x : Nat) :
    encodeRegs w true (encodeRegs w false regs x) x = encodeRegs w false regs x := by
  induction regs generalizing x with
  | nil => rfl
  | cons r rest ih =>
    show stepReg w true (stepReg w false r (x % 2)) (x % 2) :: _ = _
    rw [stepReg_replay w r (x % 2) (by omega), ih (x / 2)]
    rfl

/-- Claim C8: `encode(x, no_step := true)` immediately after
`encode(x, no_step := false)` reproduces the same output symbol and leaves
the registers exactly as after the first call, including when the first
left shift discarded a register's most significant bit. -/
theorem claim_C8_no_step_replay (e : Enc) (x : Nat) :
    encode (encode e x false).1 x true = encode e x false := by
  have h1 : encode (encode e x false).1 x true =
      (set_registers e
        (encodeRegs e.regWidth true (encodeRegs e.regWidth false e.registers x) x),
       encodeOutput e.symWidth e.k e.n
        (encodeRegs e.regWidth true (encodeRegs e.regWidth false e.registers x) x)
        e.genpoly) := rfl
  rw [h1, encodeRegs_replay]
  rfl

/-! ### CC_ReliabilityMatrix: construction and ingestion state machine -/

/-- `CC_ReliabilityMatrix`: dimensions, the ingestion cursor
`_message_symbol_count`, and the column-major metric buffer. -/
structure CC_ReliabilityMatrix where
  nb_symbols_log2 : Nat
  nb_symbols : Nat
  message_length : Nat
  message_symbol_count : Nat
  matrix : List (List ℚ)
deriving DecidableEq

/-- The dimension constructor: `nb_symbols = 1 << nb_symbols_log2`, buffer
zeroed, cursor at 0. -/
def mkRelMatrix (nb_symbols_log2 message_length : Nat) : CC_ReliabilityMatrix :=
  { nb_symbols_log2 := nb_symbols_log2
    nb_symbols := 2 ^ nb_symbols_log2
    message_length := message_length
    message_symbol_count := 0
    matrix := List.replicate message_length (List.replicate (2 ^ nb_symbols_log2) 0) }

/-- The copy constructor: copies the dimensions and the full metric buffer
but initializes `_message_symbol_count` to 0. -/
def copyRelMatrix (m : CC_ReliabilityMatrix) : CC_ReliabilityMatrix :=
  { nb_symbols_log2 := m.nb_symbols_log2
    nb_symbols := m.nb_symbols
    message_length := m.message_length
    message_symbol_count := 0
    matrix := m.matrix }

/-- Unindexed `enter_symbol_data`: write the cursor's column and advance,
unless the cursor has reached `message_length` (silent no-op).
`symbol_data` is the column of `nb_symbols` metric values the caller
supplies. -/
def enter_symbol_data (m : CC_ReliabilityMatrix) (symbol_data : List ℚ) :
    CC_ReliabilityMatrix :=
  if m.message_symbol_count < m.message_length then
    { m with
      matrix := modifyCol (fun _ => symbol_data) m.message_symbol_count m.matrix
      message_symbol_count := m.message_symbol_count + 1 }
  else m

/-- Indexed `enter_symbol_data`: write any in-range column, never touching
the cursor; out-of-range indices are a silent no-op. -/
def enter_symbol_data_at (m : CC_ReliabilityMatrix) (message_symbol_index : Nat)
    (symbol_data : List ℚ) : CC_ReliabilityMatrix :=
  if message_symbol_index < m.message_length then
    { m with matrix := modifyCol (fun _ => symbol_data) message_symbol_index m.matrix }
  else m

/-- Unindexed `enter_erasure`: write all zeros at the cursor's column and
advance, unless the cursor has reached `message_length`. -/
def enter_erasure (m : CC_ReliabilityMatrix) : CC_ReliabilityMatrix :=
  if m.message_symbol_count < m.message_length then
    { m with
      matrix := modifyCol (fun _ => List.replicate m.nb_symbols 0) m.message_symbol_count
        m.matrix
      message_symbol_count := m.message_symbol_count + 1 }
  else m

/-- Indexed `enter_erasure`. -/
def enter_erasure_at (m : CC_ReliabilityMatrix) (message_symbol_index : Nat) :
    CC_ReliabilityMatrix :=
  if message_symbol_index < m.message_length then
    { m with
      matrix := modifyCol (fun _ => List.replicate m.nb_symbols 0) message_symbol_index
        m.matrix }
  else m

/-- Claim C9: the ingestion cursor starts at 0; an unindexed ingestion call
with cursor below `message_length` overwrites exactly the cursor's column
(with the supplied data, or zeros for an erasure) and advances the cursor
by one; once the cursor equals `message_length` such calls change nothing;
indexed ingestion writes any in-range column, is a no-op out of range, and
never changes the cursor.  `m1` is any state with room left (with the
buffer length matching `message_length`, as construction guarantees), `m2`
any state whose cursor is exhausted, `idx1`/`idx2` an in-range/out-of-range
index, `j` any other column index. -/
theorem claim_C9_ingestion_cursor (a b : Nat) (m1 m2 : CC_ReliabilityMatrix)
    (data : List ℚ) (idx1 idx2 j : Nat)
    (h1 : m1.message_symbol_count < m1.message_length)
    (hwf1 : m1.matrix.length = m1.message_length)
    (h2 : m2.message_symbol_count = m2.message_length)
    (hidx1 : idx1 < m1.message_length)
    (hidx2 : ¬ idx2 < m2.message_length)
    (hj : j ≠ m1.message_symbol_count)
    (hj1 : j ≠ idx1) :
    (mkRelMatrix a b).message_symbol_count = 0 ∧
    ((enter_symbol_data m1 data).message_symbol_count = m1.message_symbol_count + 1 ∧
     (enter_symbol_data m1 data).matrix.getD m1.message_symbol_count [] = data ∧
     (enter_symbol_data m1 data).matrix.getD j [] = m1.matrix.getD j []) ∧
    ((enter_erasure m1).message_symbol_count = m1.message_symbol_count + 1 ∧
     (enter_erasure m1).matrix.getD m1.message_symbol_count [] =
       List.replicate m1.nb_symbols 0 ∧
     (enter_erasure m1).matrix.getD j [] = m1.matrix.getD j []) ∧
    (enter_symbol_data m2 data = m2 ∧ enter_erasure m2 = m2) ∧
    ((enter_symbol_data_at m1 idx1 data).message_symbol_count = m1.message_symbol_count ∧
     (enter_symbol_data_at m1 idx1 data).matrix.getD idx1 [] = data ∧
     (enter_symbol_data_at m1 idx1 data).matrix.getD j [] = m1.matrix.getD j [] ∧
     (enter_erasure_at m1 idx1).message_symbol_count = m1.message_symbol_count ∧
     (enter_erasure_at m1 idx1).matrix.getD idx1 [] = List.replicate m1.nb_symbols 0 ∧
     (enter_erasure_at m1 idx1).matrix.getD j [] = m1.matrix.getD j []) ∧
    (enter_symbol_data_at m2 idx2 data = m2 ∧ enter_erasure_at m2 idx2 = m2) := by
  have hcur : m1.message_symbol_count < m1.matrix.length := by omega
  have hin : idx1 < m1.matrix.length := by omega
  have hno : ¬ m2.message_symbol_count < m2.message_length := by omega
  refine ⟨rfl, ⟨?_, ?_, ?_⟩, ⟨?_, ?_, ?_⟩, ⟨?_, ?_⟩, ⟨?_, ?_, ?_, ?_, ?_, ?_⟩, ⟨?_, ?_⟩⟩
  · simp [enter_symbol_data, h1]
  · simp only [enter_symbol_data, if_pos h1]
    exact getD_modifyCol_self _ _ _ hcur
  · simp only [enter_symbol_data, if_pos h1]
    exact getD_modifyCol_ne _ _ _ _ hj
  · simp [enter_erasure, h1]
  · simp only [enter_erasure, if_pos h1]
    exact getD_modifyCol_self _ _ _ hcur
  · simp only [enter_erasure, if_pos h1]
    exact getD_modifyCol_ne _ _ _ _ hj
  · simp [enter_symbol_data, hno]
  · simp [enter_erasure, hno]
  · simp [enter_symbol_data_at, hidx1]
  · simp only [enter_symbol_data_at, if_pos hidx1]
    exact getD_modifyCol_self _ _ _ hin
  · simp only [enter_symbol_data_at, if_pos hidx1]
    exact getD_modifyCol_ne _ _ _ _ hj1
  · simp [enter_erasure_at, hidx1]
  · simp only [enter_erasure_at, if_pos hidx1]
    exact getD_modifyCol_self _ _ _ hin
  · simp only [enter_erasure_at, if_pos hidx1]
    exact getD_modifyCol_ne _ _ _ _ hj1
  · simp [enter_symbol_data_at, hidx2]
  · simp [enter_erasure_at, hidx2]

/-- Witness for C9: `m1` freshly constructed (1 bit, 2 columns), `m2` the
same matrix with its cursor exhausted by hand. -/
theorem claim_C9_ingestion_cursor_witness :
    ((mkRelMatrix 1 2).message_symbol_count < (mkRelMatrix 1 2).message_length ∧
     (mkRelMatrix 1 2).matrix.length = (mkRelMatrix 1 2).message_length ∧
     (enter_erasure (enter_erasure (mkRelMatrix 1 2))).message_symbol_count =
       (enter_erasure (enter_erasure (mkRelMatrix 1 2))).message_length) ∧
    ((mkRelMatrix 3 4).message_symbol_count = 0 ∧
    ((enter_symbol_data (mkRelMatrix 1 2) [5, 7]).message_symbol_count =
       (mkRelMatrix 1 2).message_symbol_count + 1 ∧
     (enter_symbol_data (mkRelMatrix 1 2) [5, 7]).matrix.getD
       (mkRelMatrix 1 2).message_symbol_count [] = [5, 7] ∧
     (enter_symbol_data (mkRelMatrix 1 2) [5, 7]).matrix.getD 1 [] =
       (mkRelMatrix 1 2).matrix.getD 1 []) ∧
    ((enter_erasure (mkRelMatrix 1 2)).message_symbol_count =
       (mkRelMatrix 1 2).message_symbol_count + 1 ∧
     (enter_erasure (mkRelMatrix 1 2)).matrix.getD (mkRelMatrix 1 2).message_symbol_count [] =
       List.replicate (mkRelMatrix 1 2).nb_symbols 0 ∧
     (enter_erasure (mkRelMatrix 1 2)).matrix.getD 1 [] = (mkRelMatrix 1 2).matrix.getD 1 []) ∧
    (enter_symbol_data (enter_erasure (enter_erasure (mkRelMatrix 1 2))) [5, 7] =
       enter_erasure (enter_erasure (mkRelMatrix 1 2)) ∧
     enter_erasure (enter_erasure (enter_erasure (mkRelMatrix 1 2))) =
       enter_erasure (enter_erasure (mkRelMatrix 1 2))) ∧
    ((enter_symbol_data_at (mkRelMatrix 1 2) 0 [5, 7]).message_symbol_count =
       (mkRelMatrix 1 2).message_symbol_count ∧
     (enter_symbol_data_at (mkRelMatrix 1 2) 0 [5, 7]).matrix.getD 0 [] = [5, 7] ∧
     (enter_symbol_data_at (mkRelMatrix 1 2) 0 [5, 7]).matrix.getD 1 [] =
       (mkRelMatrix 1 2).matrix.getD 1 [] ∧
     (enter_erasure_at (mkRelMatrix 1 2) 0).message_symbol_count =
       (mkRelMatrix 1 2).message_symbol_count ∧
     (enter_erasure_at (mkRelMatrix 1 2) 0).matrix.getD 0 [] =
       List.replicate (mkRelMatrix 1 2).nb_symbols 0 ∧
     (enter_erasure_at (mkRelMatrix 1 2) 0).matrix.getD 1 [] =
       (mkRelMatrix 1 2).matrix.getD 1 []) ∧
    (enter_symbol_data_at (enter_erasure (enter_erasure (mkRelMatrix 1 2))) 9 [5, 7] =
       enter_erasure (enter_erasure (mkRelMatrix 1 2)) ∧
     enter_erasure_at (enter_erasure (enter_erasure (mkRelMatrix 1 2))) 9 =
       enter_erasure (enter_erasure (mkRelMatrix 1 2)))) :=
  ⟨⟨by decide, by decide, by decide⟩,
    claim_C9_ingestion_cursor 3 4 (mkRelMatrix 1 2)
      (enter_erasure (enter_erasure (mkRelMatrix 1 2))) [5, 7] 0 9 1
      (by decide) (by decide) (by decide) (by decide) (by decide) (by decide) (by decide)⟩

/-- Claim C10: the copy constructor duplicates the metric buffer cell for
cell but always resets the copy's ingestion cursor to 0 — whatever the
source's cursor was — so the first unindexed ingestion on a copy of a
matrix with at least one column overwrites column 0 and moves the copy's
cursor to 1. -/
theorem claim_C10_copy_resets_cursor (m : CC_ReliabilityMatrix) (data : List ℚ)
    (hlen : 0 < m.message_length) (hwf : m.matrix.length = m.message_length) :
    (copyRelMatrix m).matrix = m.matrix ∧
    (copyRelMatrix m).message_symbol_count = 0 ∧
    (enter_symbol_data (copyRelMatrix m) data).message_symbol_count = 1 ∧
    (enter_symbol_data (copyRelMatrix m) data).matrix.getD 0 [] = data ∧
    ∀ j, j ≠ 0 →
      (enter_symbol_data (copyRelMatrix m) data).matrix.getD j [] = m.matrix.getD j [] := by
  have hc : (copyRelMatrix m).message_symbol_count < (copyRelMatrix m).message_length := by
    show (0 : Nat) < m.message_length
    exact hlen
  refine ⟨?_, ?_, ?_, ?_, ?_⟩
  · rfl
  · rfl
  · simp [enter_symbol_data, copyRelMatrix, hlen]
  · simp only [enter_symbol_data, if_pos hc]
    exact getD_modifyCol_self _ _ _ (by show 0 < m.matrix.length; omega)
  · intro j hjne
    simp only [enter_symbol_data, if_pos hc]
    exact getD_modifyCol_ne _ _ _ _ hjne

/-- Witness for C10 on a fully-filled source matrix (cursor = message
length): its copy still writes column 0 first. -/
theorem claim_C10_copy_resets_cursor_witness :
    (0 < (enter_erasure (mkRelMatrix 1 1)).message_length ∧
     (enter_erasure (mkRelMatrix 1 1)).matrix.length =
       (enter_erasure (mkRelMatrix 1 1)).message_length) ∧
    ((copyRelMatrix (enter_erasure (mkRelMatrix 1 1))).matrix =
       (enter_erasure (mkRelMatrix 1 1)).matrix ∧
     (copyRelMatrix (enter_erasure (mkRelMatrix 1 1))).message_symbol_count = 0 ∧
     (enter_symbol_data (copyRelMatrix (enter_erasure (mkRelMatrix 1 1)))
       [5, 7]).message_symbol_count = 1 ∧
     (enter_symbol_data (copyRelMatrix (enter_erasure (mkRelMatrix 1 1)))
       [5, 7]).matrix.getD 0 [] = [5, 7] ∧
     ∀ j, j ≠ 0 →
       (enter_symbol_data (copyRelMatrix (enter_erasure (mkRelMatrix 1 1)))
         [5, 7]).matrix.getD j [] = (enter_erasure (mkRelMatrix 1 1)).matrix.getD j []) :=
  ⟨⟨by decide, by decide⟩,
    claim_C10_copy_resets_cursor (enter_erasure (mkRelMatrix 1 1)) [5, 7]
      (by decide) (by decide)⟩

/-! ### deinterleave (`CC_ReliabilityMatrix.cpp` 203-235) -/

/-- The bit-reversal inner loop of `deinterleave`
(`for (; iv; iv >>= 1) { new_index |= iv & 1; new_index <<= 1; s--; }`):
returns the final `(new_index, s)`. -/
def bitrevAux (iv new_index s : Nat) : Nat × Nat :=
  if h : iv = 0 then (new_index, s)
  else bitrevAux (iv / 2) ((new_index ||| iv % 2) * 2) (s - 1)
termination_by iv
decreasing_by exact Nat.div_lt_self (Nat.pos_of_ne_zero h) Nat.one_lt_two

/-- `deinterleave`'s bit reversal of `i` within `index_size` bits: run the
loop from `new_index = 0`, then `new_index >>= 1; new_index <<= s`. -/
def bitrev (index_size i : Nat) : Nat :=
  (bitrevAux i 0 index_size).1 / 2 * 2 ^ (bitrevAux i 0 index_size).2

/-- The source-column indices `deinterleave` copies, in destination order:
raw indices `i = 0, …, 2^index_size - 1` (where
`index_size = (unsigned)(log(message_length)/log(2)) + 1`, i.e.
`⌊log₂ L⌋ + 1`), bit-reversed, kept when `< L`, and cut off once `L`
destinations are filled (the loop's `old_index < _message_length` guard). -/
def deintKept (L : Nat) : List Nat :=
  ((((List.range (2 ^ (Nat.log 2 L + 1))).map (bitrev (Nat.log 2 L + 1))).filter
    (fun x => x < L)).take L)

/-- `CC_ReliabilityMatrix::deinterleave`: destination column `d` receives
the pre-write snapshot's column `(deintKept L).getD d`; destinations the
loop never reaches keep their original contents. -/
def deinterleave (mat : List (List ℚ)) : List (List ℚ) :=
  (List.range mat.length).map (fun d =>
    if d < (deintKept mat.length).length then
      mat.getD ((deintKept mat.length).getD d 0) []
    else mat.getD d [])

/-- Reference bit reversal of `i` within `w` bits, following the claim's
words (`r(i)`, the bit-reversal of `i` within `w` bits): the low bit of
`i` moves to the top position. -/
def revM : Nat → Nat → Nat
  | 0, _ => 0
  | w + 1, i => i % 2 * 2 ^ w + revM w (i / 2)

/-- The permutation exactly as the claim words it, with
`w = ⌈log₂ L⌉` (`Nat.clog 2 L`) and `W = 2^w`: iterate raw indices
`i = 0, …, W-1` in increasing order, keep those whose `w`-bit reversal is
below `L`, and copy the kept source columns into successive destination
columns from 0. -/
def deinterleaveSpec (mat : List (List ℚ)) : List (List ℚ) :=
  (((List.range (2 ^ Nat.clog 2 mat.length)).map (revM (Nat.clog 2 mat.length))).filter
    (fun x => x < mat.length)).map (fun src => mat.getD src [])

/-- Number of binary digits of `n` (0 for 0). -/
def bitLen (n : Nat) : Nat :=
  if h : n = 0 then 0 else bitLen (n / 2) + 1
termination_by n
decreasing_by exact Nat.div_lt_self (Nat.pos_of_ne_zero h) Nat.one_lt_two

theorem bitLen_zero : bitLen 0 = 0 := by simp [bitLen]

theorem bitLen_pos_eq (n : Nat) (h : n ≠ 0) : bitLen n = bitLen (n / 2) + 1 := by
  rw [bitLen]
  simp [h]

theorem bitLen_pos (n : Nat) (h : n ≠ 0) : 1 ≤ bitLen n := by
  rw [bitLen_pos_eq n h]
  omega

theorem lt_two_pow_bitLen (n : Nat) : n < 2 ^ bitLen n := by
  induction n using Nat.strong_induction_on with
  | _ n ih =>
    by_cases h : n = 0
    · subst h
      simp [bitLen_zero]
    · rw [bitLen_pos_eq n h, pow_succ]
      have := ih (n / 2) (Nat.div_lt_self (Nat.pos_of_ne_zero h) Nat.one_lt_two)
      omega

theorem bitLen_le (n : Nat) : ∀ s, n < 2 ^ s → bitLen n ≤ s := by
  induction n using Nat.strong_induction_on with
  | _ n ih =>
    intro s hs
    by_cases h : n = 0
    · subst h
      simp [bitLen_zero]
    · cases s with
      | zero => omega
      | succ t =>
        rw [bitLen_pos_eq n h]
        have hdiv : n / 2 < 2 ^ t := by
          have hp : (2 : Nat) ^ (t + 1) = 2 ^ t * 2 := pow_succ 2 t
          omega
        have := ih (n / 2) (Nat.div_lt_self (Nat.pos_of_ne_zero h) Nat.one_lt_two) t hdiv
        omega

theorem revM_zero (w : Nat) : revM w 0 = 0 := by
  induction w with
  | zero => rfl
  | succ w ih => simp [revM, ih]

theorem revM_lt (w : Nat) : ∀ i, revM w i < 2 ^ w := by
  induction w with
  | zero => intro i; simp [revM]
  | succ w ih =>
    intro i
    have h1 := ih (i / 2)
    have h2 : i % 2 ≤ 1 := by omega
    show i % 2 * 2 ^ w + revM w (i / 2) < 2 ^ (w + 1)
    have hp : (2 : Nat) ^ (w + 1) = 2 ^ w * 2 := pow_succ 2 w
    rcases Nat.le_one_iff_eq_zero_or_eq_one.mp h2 with h0 | h0 <;> rw [h0] <;> omega

theorem revM_two_mul (w j : Nat) : revM (w + 1) (2 * j) = revM w j := by
  show 2 * j % 2 * 2 ^ w + revM w (2 * j / 2) = revM w j
  rw [Nat.mul_mod_right, Nat.mul_div_cancel_left j (by omega : 0 < 2)]
  simp

theorem revM_succ_lt_iff_even (w i : Nat) : revM (w + 1) i < 2 ^ w ↔ i % 2 = 0 := by
  have h := revM_lt w (i / 2)
  show i % 2 * 2 ^ w + revM w (i / 2) < 2 ^ w ↔ i % 2 = 0
  rcases Nat.mod_two_eq_zero_or_one i with h0 | h0 <;> rw [h0]
  · simpa using h
  · have hp : 0 < (2 : Nat) ^ w := Nat.two_pow_pos w
    omega

theorem revM_inj (w : Nat) : ∀ i j, i < 2 ^ w → j < 2 ^ w → revM w i = revM w j → i = j := by
  induction w with
  | zero => intro i j hi hj _; omega
  | succ w ih =>
    intro i j hi hj heq
    have hri := revM_lt w (i / 2)
    have hrj := revM_lt w (j / 2)
    have hp : (2 : Nat) ^ (w + 1) = 2 ^ w * 2 := pow_succ 2 w
    have heq' : i % 2 * 2 ^ w + revM w (i / 2) = j % 2 * 2 ^ w + revM w (j / 2) := heq
    have hmod : i % 2 = j % 2 := by
      rcases Nat.mod_two_eq_zero_or_one i with h0 | h0 <;>
        rcases Nat.mod_two_eq_zero_or_one j with h1 | h1 <;>
        rw [h0, h1] at heq' <;> omega
    have hrev : revM w (i / 2) = revM w (j / 2) := by
      rw [hmod] at heq'
      omega
    have hdiv : i / 2 = j / 2 := ih (i / 2) (j / 2) (by omega) (by omega) hrev
    omega

theorem two_mul_or_bit (m b : Nat) (hb : b ≤ 1) : 2 * m ||| b = 2 * m + b := by
  rcases Nat.le_one_iff_eq_zero_or_eq_one.mp hb with rfl | rfl
  · simp
  · have h := Nat.lor_bit false m true 0
    simpa [Nat.bit] using h

/-- What the source's bit-reversal loop computes: for a nonzero `iv` with
`b` binary digits and an even accumulator, the final `new_index` is
`2 * (new * 2^(b-1) + revM b iv)` and `s` drops by `b`. -/
theorem bitrevAux_spec : ∀ iv, iv ≠ 0 → ∀ new s m, new = 2 * m →
    bitrevAux iv new s =
      (2 * (new * 2 ^ (bitLen iv - 1) + revM (bitLen iv) iv), s - bitLen iv) := by
  intro iv
  induction iv using Nat.strong_induction_on with
  | _ iv ih =>
    intro hiv new s m hm
    rw [bitrevAux]
    rw [dif_neg hiv]
    by_cases hzero : iv / 2 = 0
    · have hiv1 : iv = 1 := by omega
      subst hiv1
      rw [bitrevAux]
      rw [dif_pos rfl]
      have hb1 : bitLen 1 = 1 := by rw [bitLen_pos_eq 1 (by omega)]; simp [bitLen_zero]
      rw [hb1, hm, two_mul_or_bit m 1 (le_refl 1)]
      have hr : revM 1 1 = 1 := rfl
      rw [hr]
      apply Prod.ext
      · show (2 * m + 1) * 2 = 2 * (2 * m * 2 ^ (1 - 1) + 1)
        rw [show (2 : Nat) ^ (1 - 1) = 1 from rfl, Nat.mul_one]
        ring
      · rfl
    · have hlt : iv / 2 < iv := Nat.div_lt_self (Nat.pos_of_ne_zero hiv) Nat.one_lt_two
      have hbit : iv % 2 ≤ 1 := by omega
      rw [hm, two_mul_or_bit m (iv % 2) hbit]
      have hrec := ih (iv / 2) hlt hzero ((2 * m + iv % 2) * 2) (s - 1) (2 * m + iv % 2)
        (by ring)
      rw [hrec]
      obtain ⟨t, ht⟩ : ∃ t, bitLen (iv / 2) = t + 1 :=
        ⟨bitLen (iv / 2) - 1, by have := bitLen_pos (iv / 2) hzero; omega⟩
      have hbl : bitLen iv = t + 2 := by rw [bitLen_pos_eq iv hiv, ht]
      rw [ht, hbl]
      have hrm : revM (t + 2) iv = iv % 2 * 2 ^ (t + 1) + revM (t + 1) (iv / 2) := rfl
      apply Prod.ext
      · show 2 * ((2 * m + iv % 2) * 2 * 2 ^ (t + 1 - 1) + revM (t + 1) (iv / 2)) =
          2 * (2 * m * 2 ^ (t + 2 - 1) + revM (t + 2) iv)
        rw [hrm]
        rw [show t + 1 - 1 = t from by omega, show t + 2 - 1 = t + 1 from by omega]
        have hp : (2 : Nat) ^ (t + 1) = 2 ^ t * 2 := pow_succ 2 t
        rw [hp]
        ring
      · show s - 1 - (t + 1) = s - (t + 2)
        omega

/-- The source's `bitrev` agrees with the reference `w`-bit reversal on
inputs below `2^w`. -/
theorem bitrev_eq_revM (s i : Nat) (h : i < 2 ^ s) : bitrev s i = revM s i := by
  by_cases h0 : i = 0
  · subst h0
    rw [bitrev, bitrevAux, dif_pos rfl, revM_zero]
    simp
  · have hb := bitLen_le i s h
    have hspec := bitrevAux_spec i h0 0 s 0 (by omega)
    rw [bitrev, hspec]
    have hd : 2 * (0 * 2 ^ (bitLen i - 1) + revM (bitLen i) i) / 2 = revM (bitLen i) i := by
      rw [Nat.zero_mul, Nat.zero_add]
      omega
    rw [hd]
    obtain ⟨d, hdd⟩ : ∃ d, s = bitLen i + d := ⟨s - bitLen i, by omega⟩
    subst hdd
    rw [Nat.add_sub_cancel_left]
    have hshift : ∀ e, revM (bitLen i + e) i = revM (bitLen i) i * 2 ^ e := by
      intro e
      induction e with
      | zero => simp
      | succ e ihe =>
        have hlt : i < 2 ^ (bitLen i + e) := by
          have h1 := lt_two_pow_bitLen i
          have h2 : (2 : Nat) ^ bitLen i ≤ 2 ^ (bitLen i + e) :=
            Nat.pow_le_pow_right (by omega) (by omega)
          omega
        have hdouble : revM (bitLen i + e + 1) i = 2 * revM (bitLen i + e) i := by
          clear ihe
          have hgen : ∀ w j, j < 2 ^ w → revM (w + 1) j = 2 * revM w j := by
            intro w
            induction w with
            | zero =>
              intro j hj
              have : j = 0 := by omega
              subst this
              simp [revM_zero]
            | succ w ihw =>
              intro j hj
              have hj2 : j / 2 < 2 ^ w := by
                have hp : (2 : Nat) ^ (w + 1) = 2 ^ w * 2 := pow_succ 2 w
                omega
              have e1 : revM (w + 1 + 1) j = j % 2 * 2 ^ (w + 1) + revM (w + 1) (j / 2) := rfl
              have e2 : revM (w + 1) j = j % 2 * 2 ^ w + revM w (j / 2) := rfl
              rw [e1, e2, ihw (j / 2) hj2]
              have hp : (2 : Nat) ^ (w + 1) = 2 ^ w * 2 := pow_succ 2 w
              rw [hp]
              ring
          exact hgen (bitLen i + e) i hlt
        rw [show bitLen i + (e + 1) = bitLen i + e + 1 from by omega, hdouble, ihe, pow_succ]
        ring
    exact (hshift d).symm

theorem range_map_getD {α β : Type} (l : List α) (d : α) (f : α → β) :
    (List.range l.length).map (fun i => f (l.getD i d)) = l.map f := by
  induction l with
  | nil => rfl
  | cons a t ih =>
    rw [List.length_cons, List.range_succ_eq_map, List.map_cons, List.map_map]
    have htail : (List.range t.length).map ((fun i => f ((a :: t).getD i d)) ∘ Nat.succ) =
        (List.range t.length).map (fun i => f (t.getD i d)) :=
      List.map_congr_left (fun i _ => rfl)
    rw [htail, ih]
    rfl

theorem filter_lt_range (n : Nat) : ∀ m, m ≤ n →
    (List.range n).filter (fun x => x < m) = List.range m := by
  induction n with
  | zero =>
    intro m hm
    have : m = 0 := by omega
    subst this
    rfl
  | succ n ih =>
    intro m hm
    rw [List.range_succ, List.filter_append]
    by_cases hmn : m ≤ n
    · rw [ih m hmn]
      have : ¬ n < m := by omega
      simp [this]
    · have hm1 : m = n + 1 := by omega
      subst hm1
      have hself : (List.range n).filter (fun x => x < n + 1) = List.range n := by
        rw [List.filter_eq_self]
        intro a ha
        have := List.mem_range.mp ha
        simp only [decide_eq_true_eq]
        omega
      rw [hself, show List.range (n + 1) = List.range n ++ [n] from List.range_succ n]
      simp [Nat.lt_succ_self]

theorem filter_even_range_two_mul (n : Nat) :
    (List.range (2 * n)).filter (fun x => x % 2 = 0) =
      (List.range n).map (fun j => 2 * j) := by
  induction n with
  | zero => rfl
  | succ n ih =>
    have h1 : 2 * (n + 1) = 2 * n + 1 + 1 := by ring
    rw [h1, List.range_succ, List.range_succ, List.filter_append, List.filter_append, ih,
      List.range_succ, List.map_append]
    have h2 : (2 * n) % 2 = 0 := Nat.mul_mod_right 2 n
    have h3 : (2 * n + 1) % 2 = 1 := by omega
    simp [h2, h3]

theorem filter_map_comm (f : Nat → Nat) (p : Nat → Bool) (l : List Nat) :
    (l.map f).filter p = (l.filter (fun x => p (f x))).map f := by
  induction l with
  | nil => rfl
  | cons a t ih =>
    by_cases h : p (f a) <;> simp [h, ih]

theorem map_revM_range_perm (w : Nat) :
    (((List.range (2 ^ w)).map (revM w))).Perm (List.range (2 ^ w)) := by
  have hnodup : ((List.range (2 ^ w)).map (revM w)).Nodup := by
    refine List.Nodup.map_on ?_ (List.nodup_range _)
    intro x hx y hy hxy
    exact revM_inj w x y (List.mem_range.mp hx) (List.mem_range.mp hy) hxy
  have hsub : ((List.range (2 ^ w)).map (revM w)) ⊆ List.range (2 ^ w) := by
    intro x hx
    obtain ⟨i, _, rfl⟩ := List.mem_map.mp hx
    exact List.mem_range.mpr (revM_lt w i)
  exact (List.subperm_of_subset hnodup hsub).perm_of_length_le (by simp)

/-- Filtering the `(k+1)`-bit reversals of `0, …, 2^(k+1)-1` below `2^k`
keeps exactly the even raw indices and yields the `k`-bit reversal
sequence — the power-of-two case where the code's `⌊log₂ L⌋ + 1` bit
width differs from the claim's `⌈log₂ L⌉`. -/
theorem kept_pow_eq (k : Nat) :
    (((List.range (2 ^ (k + 1))).map (revM (k + 1))).filter (fun x => x < 2 ^ k)) =
      (List.range (2 ^ k)).map (revM k) := by
  rw [filter_map_comm]
  have hc : ((List.range (2 ^ (k + 1))).filter
        (fun i => (fun x => decide (x < 2 ^ k)) (revM (k + 1) i))) =
      (List.range (2 ^ (k + 1))).filter (fun i => decide (i % 2 = 0)) := by
    apply List.filter_congr
    intro i _
    show decide (revM (k + 1) i < 2 ^ k) = decide (i % 2 = 0)
    exact decide_eq_decide.mpr (revM_succ_lt_iff_even k i)
  rw [hc]
  rw [show (2 : Nat) ^ (k + 1) = 2 * 2 ^ k from by rw [pow_succ]; ring]
  rw [filter_even_range_two_mul, List.map_map]
  apply List.map_congr_left
  intro j _
  exact revM_two_mul k j

/-- For a non-power-of-two length, `⌈log₂ L⌉ = ⌊log₂ L⌋ + 1`: the code's
and the claim's bit widths coincide. -/
theorem clog2_of_not_pow (L : Nat) (hL : L ≠ 0) (hnp : 2 ^ Nat.log 2 L ≠ L) :
    Nat.clog 2 L = Nat.log 2 L + 1 := by
  have h1 : 2 ^ Nat.log 2 L ≤ L := Nat.pow_log_le_self 2 hL
  have h3 : L < 2 ^ (Nat.log 2 L + 1) := Nat.lt_pow_succ_log_self (by omega) L
  have h4 : Nat.clog 2 L ≤ Nat.log 2 L + 1 :=
    (Nat.le_pow_iff_clog_le (by omega)).mp (le_of_lt h3)
  by_contra hne
  have h5 : Nat.clog 2 L ≤ Nat.log 2 L := by omega
  have h2 : L ≤ 2 ^ Nat.clog 2 L := Nat.le_pow_clog (by omega) L
  have h6 : (2 : Nat) ^ Nat.clog 2 L ≤ 2 ^ Nat.log 2 L :=
    Nat.pow_le_pow_right (by omega) h5
  omega

theorem deintKept_pre_perm (L : Nat) (hL : 1 ≤ L) :
    ((((List.range (2 ^ (Nat.log 2 L + 1))).map (bitrev (Nat.log 2 L + 1))).filter
      (fun x => x < L))).Perm (List.range L) := by
  have hmap : (List.range (2 ^ (Nat.log 2 L + 1))).map (bitrev (Nat.log 2 L + 1)) =
      (List.range (2 ^ (Nat.log 2 L + 1))).map (revM (Nat.log 2 L + 1)) :=
    List.map_congr_left (fun i hi => bitrev_eq_revM _ i (List.mem_range.mp hi))
  rw [hmap]
  have h1 := (map_revM_range_perm (Nat.log 2 L + 1)).filter (fun x => decide (x < L))
  have h2 : (List.range (2 ^ (Nat.log 2 L + 1))).filter (fun x => x < L) = List.range L :=
    filter_lt_range _ L (le_of_lt (Nat.lt_pow_succ_log_self (by omega) L))
  rw [h2] at h1
  exact h1

theorem deintKept_eq_pre (L : Nat) (hL : 1 ≤ L) :
    deintKept L = (((List.range (2 ^ (Nat.log 2 L + 1))).map (bitrev (Nat.log 2 L + 1))).filter
      (fun x => x < L)) := by
  have hlen := (deintKept_pre_perm L hL).length_eq
  rw [List.length_range] at hlen
  unfold deintKept
  exact List.take_of_length_le (le_of_eq hlen)

theorem deintKept_perm (L : Nat) (hL : 1 ≤ L) : (deintKept L).Perm (List.range L) := by
  rw [deintKept_eq_pre L hL]
  exact deintKept_pre_perm L hL

theorem deintKept_length (L : Nat) (hL : 1 ≤ L) : (deintKept L).length = L := by
  have := (deintKept_perm L hL).length_eq
  rwa [List.length_range] at this

theorem deinterleave_eq_kept_map (mat : List (List ℚ)) (hL : 1 ≤ mat.length) :
    deinterleave mat = (deintKept mat.length).map (fun src => mat.getD src []) := by
  have hlen := deintKept_length mat.length hL
  unfold deinterleave
  have h1 : (List.range mat.length).map (fun d =>
      if d < (deintKept mat.length).length then
        mat.getD ((deintKept mat.length).getD d 0) []
      else mat.getD d []) =
    (List.range mat.length).map (fun d => mat.getD ((deintKept mat.length).getD d 0) []) := by
    apply List.map_congr_left
    intro d hd
    rw [if_pos (by rw [hlen]; exact List.mem_range.mp hd)]
  rw [h1]
  have h3 := range_map_getD (deintKept mat.length) 0 (fun src => mat.getD src [])
  rw [hlen] at h3
  exact h3

theorem deinterleave_perm (mat : List (List ℚ)) (hL : 1 ≤ mat.length) :
    (deinterleave mat).Perm mat := by
  rw [deinterleave_eq_kept_map mat hL]
  have h1 := (deintKept_perm mat.length hL).map (fun src => mat.getD src [])
  have h2 : (List.range mat.length).map (fun src => mat.getD src []) = mat := by
    have := range_map_getD mat [] (fun c => c)
    simpa using this
  rw [h2] at h1
  exact h1

theorem deinterleave_eq_spec (mat : List (List ℚ)) (hL : 1 ≤ mat.length) :
    deinterleave mat = deinterleaveSpec mat := by
  rw [deinterleave_eq_kept_map mat hL]
  unfold deinterleaveSpec
  congr 1
  rw [deintKept_eq_pre mat.length hL]
  have hmap : (List.range (2 ^ (Nat.log 2 mat.length + 1))).map (bitrev (Nat.log 2 mat.length + 1)) =
      (List.range (2 ^ (Nat.log 2 mat.length + 1))).map (revM (Nat.log 2 mat.length + 1)) :=
    List.map_congr_left (fun i hi => bitrev_eq_revM _ i (List.mem_range.mp hi))
  rw [hmap]
  by_cases hp2 : 2 ^ Nat.log 2 mat.length = mat.length
  · have hclog : Nat.clog 2 mat.length = Nat.log 2 mat.length := by
      conv_lhs => rw [← hp2]
      exact Nat.clog_pow 2 (Nat.log 2 mat.length) (by omega)
    rw [hclog]
    generalize hk : Nat.log 2 mat.length = k at hp2 ⊢
    rw [← hp2, kept_pow_eq k]
    symm
    rw [List.filter_eq_self]
    intro a ha
    obtain ⟨i, _, rfl⟩ := List.mem_map.mp ha
    have := revM_lt k i
    simpa using this
  · rw [clog2_of_not_pow mat.length (by omega) hp2]

/-- `Nat.clog 2 4 = 2`, needed to evaluate the claim's concrete
message-length-4 example. -/
theorem clog_two_four : Nat.clog 2 4 = 2 := by
  have h := Nat.clog_pow 2 2 (by omega)
  simpa using h

theorem deinterleave_golden :
    deinterleave [[(0 : ℚ)], [2], [1], [3]] = [[0], [1], [2], [3]] := by
  have h1 : deinterleave [[(0 : ℚ)], [2], [1], [3]] =
      deinterleaveSpec [[(0 : ℚ)], [2], [1], [3]] :=
    deinterleave_eq_spec [[(0 : ℚ)], [2], [1], [3]] (by decide)
  have h2 : deinterleaveSpec [[(0 : ℚ)], [2], [1], [3]] =
      (((List.range (2 ^ Nat.clog 2 4)).map (revM (Nat.clog 2 4))).filter
        (fun x => x < 4)).map
        (fun src => ([[(0 : ℚ)], [2], [1], [3]] : List (List ℚ)).getD src []) := rfl
  rw [h1, h2, clog_two_four]
  decide

/-- Claim C6: for a matrix with at least one column, `deinterleave()`
realizes exactly the claim's bit-reversal permutation with
`w = ⌈log₂ L⌉` (reading from a pre-write snapshot, skipping reversals
`≥ L`, filling destinations in increasing order); it permutes the columns
(multiset of column contents preserved); and for `message_length = 4` it
maps column order `[0,2,1,3]` back to `[0,1,2,3]`. -/
theorem claim_C6_deinterleave (mat : List (List ℚ)) (hL : 1 ≤ mat.length) :
    deinterleave mat = deinterleaveSpec mat ∧
    (deinterleave mat).Perm mat ∧
    deinterleave [[(0 : ℚ)], [2], [1], [3]] = [[0], [1], [2], [3]] :=
  ⟨deinterleave_eq_spec mat hL, deinterleave_perm mat hL, deinterleave_golden⟩

/-- Witness for C6 at the interleaved 4-column matrix. -/
theorem claim_C6_deinterleave_witness :
    1 ≤ ([[(0 : ℚ)], [2], [1], [3]] : List (List ℚ)).length ∧
    (deinterleave [[(0 : ℚ)], [2], [1], [3]] = deinterleaveSpec [[(0 : ℚ)], [2], [1], [3]] ∧
    (deinterleave [[(0 : ℚ)], [2], [1], [3]]).Perm [[(0 : ℚ)], [2], [1], [3]] ∧
    deinterleave [[(0 : ℚ)], [2], [1], [3]] = [[0], [1], [2], [3]]) :=
  ⟨by decide, claim_C6_deinterleave [[(0 : ℚ)], [2], [1], [3]] (by decide)⟩

end ccsoft
